import Mathlib

/-
Verification of the session/cache store and chunking/ranking engine of the
telegram-youtube-summarizer repository, as a shallow embedding in Lean 4.

Sources embedded:
  - src/config.ts                      (config constants, validateConfig)
  - src/components/QAEngine.ts         (chunkTranscript, findRelevantChunks,
                                        extractKeywords, escapeRegex)
  - src/components/ContextManager.ts   (createSession, getSession,
                                        updateHistory, cacheTranscript,
                                        getCachedTranscript)
  - TranscriptFetcher.chunkTranscript  (byte-oriented segmentation variant)

Modelling conventions:
  - JS strings are Lean String values; character-level work is done on .data.
  - JS Date values are modelled as Int milliseconds since the epoch.
  - A JS Map is modelled as an insertion-ordered association list
    List (String by Value); Map.set updates in place or appends, Map.delete
    removes the first matching entry, keys().next().value is the head key.
  - The while loop of QAEngine.chunkTranscript is modelled with explicit
    fuel (returning none when fuel runs out, i.e. the loop is still
    running); for every configuration with overlap < chunkSize a fuel of
    tokenCount + 1 is proved sufficient.
  - All definitions are structural recursions, so every concrete instance
    reduces inside the kernel.
-/

set_option autoImplicit false

namespace YTS

/-! ### Configuration (src/config.ts) -/

structure QaConfig where
  chunkSize : Nat
  chunkOverlap : Nat
  maxRelevantChunks : Nat
  maxHistoryPairs : Nat
deriving DecidableEq

/-- config.qa from src/config.ts lines 39-44. -/
def configQa : QaConfig :=
  { chunkSize := 500, chunkOverlap := 50, maxRelevantChunks := 3, maxHistoryPairs := 5 }

structure CacheConfig where
  maxVideos : Nat
  ttlDays : Nat
deriving DecidableEq

/-- config.cache from src/config.ts lines 25-28. -/
def configCache : CacheConfig := { maxVideos := 1000, ttlDays := 7 }

/-- validateConfig from src/config.ts lines 48-63: collects the error
messages.  The source throws iff this list is nonempty.  Note that the
source function reads only the credential fields of the configuration;
it performs no check whatsoever on the chunking parameters. -/
def validateConfigErrors (botToken geminiApiKey openaiApiKey : String) : List String :=
  (if botToken = "" then ["TELEGRAM_BOT_TOKEN is required"] else []) ++
    (if geminiApiKey = "" ∧ openaiApiKey = "" then
      ["Either GEMINI_API_KEY or OPENAI_API_KEY is required"] else [])

/-! ### JavaScript string primitives -/

/-- The ASCII whitespace characters matched by the regex class backslash-s.
(The JS class also matches some Unicode space characters, which are
irrelevant to every claim considered here.) -/
def isJsWhitespace (c : Char) : Bool :=
  c = ' ' ∨ c = '\t' ∨ c = '\n' ∨ c = '\r' ∨ c = '\x0b' ∨ c = '\x0c'

/-- State machine for JS String.prototype.split on a run of whitespace.
State some acc: currently building the token acc (reversed); state none:
the previous character was whitespace (separator run in progress). -/
def splitWsGo : Option (List Char) → List Char → List (List Char)
  | some acc, [] => [acc.reverse]
  | none, [] => [[]]
  | some acc, c :: cs =>
      if isJsWhitespace c then acc.reverse :: splitWsGo none cs
      else splitWsGo (some (c :: acc)) cs
  | none, c :: cs =>
      if isJsWhitespace c then splitWsGo none cs
      else splitWsGo (some [c]) cs

/-- JS text.split(regex of one-or-more whitespace): splits on maximal
whitespace runs; leading or trailing whitespace contributes an empty
piece, and the result is never the empty list. -/
def splitWs (s : List Char) : List (List Char) := splitWsGo (some []) s

/-- Clamp an Int index the way JS Array.prototype.slice does:
a negative index counts from the end (bounded below by 0), a nonnegative
one is bounded above by the length. -/
def jsSliceIdx (len : Nat) (i : Int) : Nat :=
  if i < 0 then ((len : Int) + i).toNat else min i.toNat len

/-- JS arr.slice(start, stop). -/
def jsSlice {α : Type} (l : List α) (start stop : Int) : List α :=
  (l.drop (jsSliceIdx l.length start)).take (jsSliceIdx l.length stop - jsSliceIdx l.length start)

/-! ### QAEngine (src/components/QAEngine.ts) -/

namespace QAEngine

/-- The Chunk interface of QAEngine.ts lines 6-10 (JS numbers as Int). -/
structure Chunk where
  text : String
  startIndex : Int
  endIndex : Int
deriving DecidableEq

/-- The chunk pushed by one iteration of QAEngine.chunkTranscript:
text is the slice [startIndex, endIndex) of the words joined by single
spaces. -/
def mkChunk (words : List String) (startIndex endIndex : Int) : Chunk :=
  ⟨String.intercalate " " (jsSlice words startIndex endIndex), startIndex, endIndex⟩

/-- The while loop of QAEngine.chunkTranscript (lines 79-98), with explicit
fuel.  none means the fuel was exhausted while the loop was still
running.  Each iteration: stop if startIndex is past the words; otherwise
compute endIndex = min (startIndex + chunkSize) len, push the chunk for
[startIndex, endIndex), break if endIndex reached the end, else advance
startIndex by chunkSize - overlap (JS number arithmetic, hence Int). -/
def chunkLoop (chunkSize overlap : Nat) (words : List String) :
    Nat → Int → Option (List Chunk)
  | 0, _ => none
  | fuel + 1, startIndex =>
      if startIndex < (words.length : Int) then
        if min (startIndex + (chunkSize : Int)) (words.length : Int) = (words.length : Int) then
          some [mkChunk words startIndex (min (startIndex + (chunkSize : Int)) (words.length : Int))]
        else
          (chunkLoop chunkSize overlap words fuel
              (startIndex + ((chunkSize : Int) - (overlap : Int)))).map
            (mkChunk words startIndex (min (startIndex + (chunkSize : Int)) (words.length : Int)) :: ·)
      else some []

/-- QAEngine.chunkTranscript (lines 73-108), parameterized by the two
configuration values it reads (config.qa.chunkSize, config.qa.chunkOverlap).
The fuel tokenCount + 1 is proved sufficient whenever overlap < chunkSize;
a none result means the loop was still running after that many
iterations. -/
def chunkTranscript (chunkSize overlap : Nat) (text : String) : Option (List Chunk) :=
  let words := (splitWs text.data).map String.mk
  chunkLoop chunkSize overlap words (words.length + 1) 0

/-- The stop-word set of QAEngine.extractKeywords (lines 155-162). -/
def stopWords : List String :=
  ["a", "an", "the", "is", "are", "was", "were", "be", "been", "being",
   "have", "has", "had", "do", "does", "did", "will", "would", "could",
   "should", "may", "might", "can", "in", "on", "at", "to", "for", "of",
   "with", "by", "from", "about", "what", "when", "where", "who", "how",
   "why", "which", "this", "that", "these", "those", "i", "you", "he",
   "she", "it", "we", "they", "me", "him", "her", "us", "them"]

/-- A JS word character (regex class backslash-w): ASCII letter, digit or
underscore. -/
def isWordChar (c : Char) : Bool := c.isAlphanum ∨ c = '_'

/-- The metacharacters escaped by QAEngine.escapeRegex (line 174). -/
def regexSpecialChars : List Char :=
  ['.', '*', '+', '?', '^', '$', '\x7b', '\x7d', '(', ')', '|', '[', ']', '\\']

/-- QAEngine.escapeRegex (lines 173-175): prefix every regex metacharacter
with a backslash. -/
def escapeRegex (s : String) : String :=
  String.mk (s.data.foldr
    (fun c acc => if c ∈ regexSpecialChars then '\\' :: c :: acc else c :: acc) [])

/-- De-duplication keeping the first occurrence, as JS Set-spreading does. -/
def dedupFirstAux (seen : List (List Char)) : List (List Char) → List (List Char)
  | [] => []
  | x :: xs =>
      if x ∈ seen then dedupFirstAux seen xs
      else x :: dedupFirstAux (x :: seen) xs

/-- QAEngine.extractKeywords (lines 153-171): lowercase, replace every
character that is neither a word character nor whitespace by a space,
split on whitespace, keep tokens of length above 2 that are not stop
words, de-duplicate keeping first occurrences. -/
def extractKeywords (text : String) : List String :=
  let lowered := text.data.map Char.toLower
  let replaced := lowered.map (fun c => if ¬ isWordChar c ∧ ¬ isJsWhitespace c then ' ' else c)
  let toks := splitWs replaced
  let kept := toks.filter (fun w => 2 < w.length ∧ ¬ (String.mk w) ∈ stopWords)
  (dedupFirstAux [] kept).map String.mk

/-- The maximal word-character runs of a character list.  A regex match of
word-boundary, a keyword consisting only of word characters, then
word-boundary occurs exactly at such maximal runs equal to the keyword,
which is how the global count in findRelevantChunks (lines 126-130) is
modelled below. -/
def wordRunsGo (acc : List Char) : List Char → List (List Char)
  | [] => if acc = [] then [] else [acc.reverse]
  | c :: cs =>
      if isWordChar c then wordRunsGo (c :: acc) cs
      else if acc = [] then wordRunsGo [] cs
      else acc.reverse :: wordRunsGo [] cs

def wordRuns (s : List Char) : List (List Char) := wordRunsGo [] s

/-- The per-chunk score of QAEngine.findRelevantChunks (lines 120-134):
the sum over keywords of the number of case-insensitive whole-word
occurrences of the keyword in the chunk text. -/
def scoreChunk (keywords : List String) (chunkText : String) : Nat :=
  let lower := chunkText.data.map Char.toLower
  let runs := wordRuns lower
  (keywords.map (fun kw => runs.count kw.data)).sum

/-- Stable insertion of x in front of the first element whose score is at
most x's.  sortDescBy below is the unique stable sort by descending
score, which is what JS Array.prototype.sort computes for the comparator
(a, b) mapped to b.score - a.score. -/
def insertDescBy {α : Type} (score : α → Nat) (x : α) : List α → List α
  | [] => [x]
  | y :: ys => if score y ≤ score x then x :: y :: ys else y :: insertDescBy score x ys

def sortDescBy {α : Type} (score : α → Nat) : List α → List α
  | [] => []
  | x :: xs => insertDescBy score x (sortDescBy score xs)

/-- QAEngine.findRelevantChunks (lines 110-151): extract keywords from the
lowercased question; with no keywords return the first
maxRelevantChunks chunks; otherwise score every chunk, sort stably by
descending score, drop zero scores and return the first
maxRelevantChunks chunk values. -/
def findRelevantChunks (question : String) (chunks : List Chunk) : List Chunk :=
  let questionWords := extractKeywords (String.mk (question.data.map Char.toLower))
  if questionWords = [] then chunks.take configQa.maxRelevantChunks
  else
    let scoredChunks := chunks.map (fun c => (c, scoreChunk questionWords c.text))
    let sorted := sortDescBy Prod.snd scoredChunks
    (((sorted.filter (fun sc => 0 < sc.2)).take configQa.maxRelevantChunks).map Prod.fst)

/-- Pair each element with its position, starting at n. -/
def withIdx {α : Type} : List α → Nat → List (α × Nat)
  | [], _ => []
  | x :: xs, n => (x, n) :: withIdx xs (n + 1)

/-- Insertion into an index-carrying list for the strict total order:
higher score first, equal scores ordered by ascending original index.
This is the order the spec describes verbatim (descending score, ties
broken by original order). -/
def insertStableBy {α : Type} (score : α → Nat) (x : α × Nat) :
    List (α × Nat) → List (α × Nat)
  | [] => [x]
  | y :: ys =>
      if score y.1 < score x.1 ∨ (score y.1 = score x.1 ∧ x.2 < y.2) then x :: y :: ys
      else y :: insertStableBy score x ys

def sortStableBy {α : Type} (score : α → Nat) : List (α × Nat) → List (α × Nat)
  | [] => []
  | x :: xs => insertStableBy score x (sortStableBy score xs)

/-- Modelled from the spec wording of the ranking step, for comparison with
findRelevantChunks: score every window, sort by descending score with ties
broken by ascending original position, drop zero scores, return the first
maxRelevantChunks windows. -/
def rankSpec (question : String) (chunks : List Chunk) : List Chunk :=
  let keywords := extractKeywords (String.mk (question.data.map Char.toLower))
  if keywords = [] then chunks.take configQa.maxRelevantChunks
  else
    let scored := withIdx (chunks.map (fun c => (c, scoreChunk keywords c.text))) 0
    let sorted := (sortStableBy Prod.snd scored).map Prod.fst
    ((sorted.filter (fun sc => 0 < sc.2)).take configQa.maxRelevantChunks).map Prod.fst

end QAEngine

/-! ### Data model (src/models/index.ts) -/

/-- The Transcript interface; fetched_at (a JS Date) is modelled as Int
milliseconds since the epoch. -/
structure Transcript where
  video_id : String
  title : String
  text : String
  language : String
  duration : Int
  fetched_at : Int
deriving DecidableEq

/-- The Chunk interface of src/models/index.ts (distinct from the QAEngine
chunk shape). -/
structure ModelChunk where
  text : String
  start_time : String
  end_time : String
  index : Int
deriving DecidableEq

structure QAPair where
  question : String
  answer : String
  timestamp : Int
deriving DecidableEq

structure Session where
  user_id : String
  video_id : String
  transcript : Transcript
  chunks : List ModelChunk
  history : List QAPair
  language : String
  created_at : Int
  last_accessed : Int
deriving DecidableEq

/-! ### JavaScript Map primitives

A JS Map is an insertion-ordered collection of key-value entries with
unique keys; it is modelled as an association list in insertion order. -/

/-- Map.get: the value of the first entry with the given key. -/
def jsMapGet {α : Type} : List (String × α) → String → Option α
  | [], _ => none
  | p :: rest, k => if p.1 = k then some p.2 else jsMapGet rest k

/-- Map.set: overwrite in place if the key is present, else append. -/
def jsMapSet {α : Type} : List (String × α) → String → α → List (String × α)
  | [], k, v => [(k, v)]
  | p :: rest, k, v => if p.1 = k then (k, v) :: rest else p :: jsMapSet rest k v

/-- Map.delete: remove the (unique) entry with the given key. -/
def jsMapDelete {α : Type} : List (String × α) → String → List (String × α)
  | [], _ => []
  | p :: rest, k => if p.1 = k then rest else p :: jsMapDelete rest k

/-! ### ContextManager (src/components/ContextManager.ts) -/

namespace ContextManager

abbrev Cache := List (String × Transcript)

/-- ContextManager.cacheTranscript (lines 136-149), parameterized by the
configuration value config.cache.maxVideos it reads.  If the cache has
reached capacity, the first (oldest-inserted) key is deleted -- whether or
not the inserted key is already present -- and then the entry is set.
The deletion is guarded by the JS truthiness test if (firstKey) in the
source (line 141): when the map is empty the key iterator yields
undefined, and when the oldest key is the empty string it is falsy as
well, so in both cases the eviction is skipped (and in the latter case
the cache can grow past the capacity). -/
def cacheTranscript (maxVideos : Nat) (cache : Cache) (videoId : String)
    (transcript : Transcript) : Cache :=
  let cache1 :=
    if maxVideos ≤ cache.length then
      match cache with
      | [] => cache
      | p :: _ => if p.1 = "" then cache else jsMapDelete cache p.1
    else cache
  jsMapSet cache1 videoId transcript

/-- ContextManager.getCachedTranscript (lines 156-176), parameterized by
config.cache.ttlDays and the current time.  Returns the result together
with the cache state after the call (the entry is purged when its age
exceeds the TTL in milliseconds). -/
def getCachedTranscript (ttlDays : Nat) (now : Int) (cache : Cache)
    (videoId : String) : Option Transcript × Cache :=
  match jsMapGet cache videoId with
  | some t =>
      let age := now - t.fetched_at
      let ttl : Int := (ttlDays : Int) * 24 * 60 * 60 * 1000
      if ttl < age then (none, jsMapDelete cache videoId)
      else (some t, cache)
  | none => (none, cache)

/-- The mutable state of a ContextManager instance: the session map and the
transcript cache (the per-user mutex map serializes callers and is not
part of the functional state). -/
structure CMState where
  sessions : List (String × Session)
  transcriptCache : Cache
deriving DecidableEq

/-- ContextManager.createSession (lines 29-55): build a fresh session
(empty chunks, empty history, language en), store it under the user id
replacing any previous session, and cache the transcript. -/
def createSession (now : Int) (st : CMState) (userId videoId : String)
    (transcript : Transcript) : CMState × Session :=
  let s : Session :=
    { user_id := userId, video_id := videoId, transcript := transcript,
      chunks := [], history := [], language := "en",
      created_at := now, last_accessed := now }
  ({ sessions := jsMapSet st.sessions userId s,
     transcriptCache := cacheTranscript configCache.maxVideos st.transcriptCache videoId transcript },
   s)

/-- ContextManager.getSession (lines 62-77): none if absent; otherwise the
session with last_accessed set to now (mutated in place in the map). -/
def getSession (now : Int) (st : CMState) (userId : String) :
    Option Session × CMState :=
  match jsMapGet st.sessions userId with
  | none => (none, st)
  | some s =>
      let s' := { s with last_accessed := now }
      (some s', { st with sessions := jsMapSet st.sessions userId s' })

/-- ContextManager.updateHistory (lines 85-113): warning-logged no-op if
the user has no session; otherwise append the question-answer pair,
trim the history to the last config.qa.maxHistoryPairs entries when it got
longer, and touch last_accessed.  JS slice(-n) for a list longer than n
keeps the last n elements, i.e. drops length - n from the front. -/
def updateHistory (now : Int) (sessions : List (String × Session))
    (userId question answer : String) : List (String × Session) :=
  match jsMapGet sessions userId with
  | none => sessions
  | some s =>
      let h1 := s.history ++ [⟨question, answer, now⟩]
      let h2 :=
        if configQa.maxHistoryPairs < h1.length then
          h1.drop (h1.length - configQa.maxHistoryPairs)
        else h1
      jsMapSet sessions userId { s with history := h2, last_accessed := now }

end ContextManager

/-! ### TranscriptFetcher.chunkTranscript (byte-oriented segmentation) -/

namespace TranscriptFetcher

/-- The for loop of TranscriptFetcher.chunkTranscript: repeatedly take
chunkSize characters, with fuel (one unit per iteration; the caller
supplies enough fuel for any positive chunkSize). -/
def segLoop (chunkSize : Nat) : Nat → List Char → List (List Char)
  | 0, _ => []
  | _, [] => []
  | fuel + 1, c :: cs => (c :: cs).take chunkSize :: segLoop chunkSize fuel ((c :: cs).drop chunkSize)

/-- TranscriptFetcher.chunkTranscript (unnamed source part_002, lines
299-320), on the transcript text: a single segment when the text fits in
chunkSize, otherwise the substrings at offsets 0, chunkSize, 2*chunkSize,
and so on. -/
def chunkTranscript (text : String) (chunkSize : Nat) : List String :=
  if text.length ≤ chunkSize then [text]
  else (segLoop chunkSize text.data.length text.data).map String.mk

end TranscriptFetcher

/-! ### Sample data for concrete scenarios -/

/-- A transcript value with the given video id, fetched at time 0. -/
def sampleT (id : String) : Transcript :=
  { video_id := id, title := "", text := "", language := "en", duration := 0, fetched_at := 0 }

/-- A session for user u on video v with empty history, created at time 0. -/
def sampleSession : Session :=
  { user_id := "u", video_id := "v", transcript := sampleT "v", chunks := [],
    history := [], language := "en", created_at := 0, last_accessed := 0 }

/-- Question-answer-timestamp triple turned into a QAPair. -/
def mkQA (p : String × String × Int) : QAPair := ⟨p.1, p.2.1, p.2.2⟩

/-- The concrete scenario cache: capacity 2, put A, put B, put C. -/
def cacheABC : ContextManager.Cache :=
  ContextManager.cacheTranscript 2
    (ContextManager.cacheTranscript 2
      (ContextManager.cacheTranscript 2 [] "A" (sampleT "A")) "B" (sampleT "B"))
    "C" (sampleT "C")

/-! ## Theorems -/

/-! ### String plumbing -/

theorem data_append (a b : String) : (a ++ b).data = a.data ++ b.data := rfl

theorem mk_data (s : String) : String.mk s.data = s := rfl

theorem foldl_append_map_mk (l : List (List Char)) :
    ∀ acc : String, (l.map String.mk).foldl (fun r s => r ++ s) acc = String.mk (acc.data ++ l.flatten) := by
  induction l with
  | nil => intro acc; simp [mk_data]
  | cons x xs ih =>
      intro acc
      simp only [List.map_cons, List.foldl_cons, List.flatten]
      rw [ih]
      simp [data_append]

theorem join_map_mk (l : List (List Char)) :
    String.join (l.map String.mk) = String.mk l.flatten := by
  rw [String.join, foldl_append_map_mk]
  rfl

/-! ### Byte-oriented segmentation (TranscriptFetcher.chunkTranscript) -/

theorem segLoop_nil (k fuel : Nat) : TranscriptFetcher.segLoop k fuel [] = [] := by
  cases fuel <;> rfl

theorem segLoop_join (k : Nat) (hk : 0 < k) :
    ∀ (fuel : Nat) (l : List Char), l.length ≤ fuel →
      (TranscriptFetcher.segLoop k fuel l).flatten = l := by
  intro fuel
  induction fuel with
  | zero =>
      intro l hl
      have hnil : l = [] := List.length_eq_zero.mp (Nat.le_zero.mp hl)
      subst hnil
      simp [segLoop_nil]
  | succ fuel ih =>
      intro l hl
      cases l with
      | nil => simp [segLoop_nil]
      | cons c cs =>
          show (TranscriptFetcher.segLoop k (fuel + 1) (c :: cs)).flatten = c :: cs
          rw [TranscriptFetcher.segLoop]
          simp only [List.flatten_cons]
          rw [ih ((c :: cs).drop k)
            (by simp only [List.length_drop]; simp at hl ⊢; omega)]
          exact List.take_append_drop k (c :: cs)

theorem segLoop_dropLast_len (k : Nat) (hk : 0 < k) :
    ∀ (fuel : Nat) (l seg : List Char), l.length ≤ fuel →
      seg ∈ (TranscriptFetcher.segLoop k fuel l).dropLast → seg.length = k := by
  intro fuel
  induction fuel with
  | zero =>
      intro l seg hl hmem
      have hnil : l = [] := List.length_eq_zero.mp (Nat.le_zero.mp hl)
      subst hnil
      simp [segLoop_nil] at hmem
  | succ fuel ih =>
      intro l seg hl hmem
      cases l with
      | nil => simp [segLoop_nil] at hmem
      | cons c cs =>
          rw [TranscriptFetcher.segLoop] at hmem
          cases hrest : TranscriptFetcher.segLoop k fuel ((c :: cs).drop k) with
          | nil => rw [hrest] at hmem; simp at hmem
          | cons r rs =>
              rw [hrest] at hmem
              rw [List.dropLast_cons₂] at hmem
              rcases List.mem_cons.mp hmem with hseg | hseg
              · subst hseg
                have hdrop : (c :: cs).drop k ≠ [] := by
                  intro hd
                  rw [hd, segLoop_nil] at hrest
                  exact List.cons_ne_nil r rs hrest.symm
                have hk2 : k < (c :: cs).length := by
                  by_contra hkc
                  exact hdrop (List.drop_eq_nil_of_le (Nat.le_of_not_lt hkc))
                simp only [List.length_take, List.length_cons]
                simp only [List.length_cons] at hk2
                omega
              · exact ih ((c :: cs).drop k) seg
                  (by simp only [List.length_drop]; simp at hl ⊢; omega)
                  (by rw [hrest]; exact hseg)

theorem segLoop_len_le (k : Nat) :
    ∀ (fuel : Nat) (l seg : List Char), seg ∈ TranscriptFetcher.segLoop k fuel l →
      seg.length ≤ k := by
  intro fuel
  induction fuel with
  | zero => intro l seg hmem; simp [TranscriptFetcher.segLoop] at hmem
  | succ fuel ih =>
      intro l seg hmem
      cases l with
      | nil => simp [segLoop_nil] at hmem
      | cons c cs =>
          rw [TranscriptFetcher.segLoop] at hmem
          rcases List.mem_cons.mp hmem with hseg | hseg
          · subst hseg
            simp [List.length_take]
          · exact ih ((c :: cs).drop k) seg hseg

/-- C4: for every text and positive segment size, the byte-oriented
segmentation (TranscriptFetcher.chunkTranscript) concatenates, in order,
back to exactly the original text; every segment except possibly the last
has length exactly chunkSize, and every segment (in particular the last)
has length at most chunkSize. -/
theorem fetcher_chunk_roundtrip (text : String) (chunkSize : Nat) (h : 0 < chunkSize) :
    String.join (TranscriptFetcher.chunkTranscript text chunkSize) = text ∧
    (∀ seg ∈ (TranscriptFetcher.chunkTranscript text chunkSize).dropLast,
        seg.length = chunkSize) ∧
    (∀ seg ∈ TranscriptFetcher.chunkTranscript text chunkSize, seg.length ≤ chunkSize) := by
  unfold TranscriptFetcher.chunkTranscript
  by_cases hlen : text.length ≤ chunkSize
  · simp only [hlen, if_pos]
    refine ⟨?_, ?_, ?_⟩
    · show String.join [text] = text
      have : ([text.data].map String.mk) = [text] := by simp [mk_data]
      calc String.join [text] = String.join ([text.data].map String.mk) := by rw [this]
        _ = String.mk ([text.data]).flatten := join_map_mk _
        _ = text := by simp [mk_data]
    · intro seg hseg; simp at hseg
    · intro seg hseg
      simp at hseg
      subst hseg
      exact hlen
  · simp only [hlen, if_neg, not_false_iff]
    refine ⟨?_, ?_, ?_⟩
    · rw [join_map_mk, segLoop_join chunkSize h text.data.length text.data (Nat.le_refl _)]
    · intro seg hseg
      rw [← List.map_dropLast] at hseg
      rcases List.mem_map.mp hseg with ⟨l, hl, hml⟩
      have := segLoop_dropLast_len chunkSize h text.data.length text.data l (Nat.le_refl _) hl
      rw [← hml]
      exact this
    · intro seg hseg
      rcases List.mem_map.mp hseg with ⟨l, hl, hml⟩
      have := segLoop_len_le chunkSize text.data.length text.data l hl
      rw [← hml]
      exact this

/-- Witness for fetcher_chunk_roundtrip at text abcdefghij, chunkSize 3. -/
theorem fetcher_chunk_roundtrip_witness :
    String.join (TranscriptFetcher.chunkTranscript "abcdefghij" 3) = "abcdefghij" ∧
    (∀ seg ∈ (TranscriptFetcher.chunkTranscript "abcdefghij" 3).dropLast, seg.length = 3) ∧
    (∀ seg ∈ TranscriptFetcher.chunkTranscript "abcdefghij" 3, seg.length ≤ 3) :=
  fetcher_chunk_roundtrip "abcdefghij" 3 (by decide)

/-! ### Token-overlap chunking (QAEngine.chunkTranscript) -/

theorem splitWsGo_ne_nil : ∀ (l : List Char) (st : Option (List Char)),
    splitWsGo st l ≠ [] := by
  intro l
  induction l with
  | nil => intro st; cases st <;> simp [splitWsGo]
  | cons c cs ih =>
      intro st
      cases st with
      | some acc =>
          by_cases hws : isJsWhitespace c
          · simp [splitWsGo, hws]
          · simp only [splitWsGo, hws, Bool.false_eq_true, if_false]
            exact ih (some (c :: acc))
      | none =>
          by_cases hws : isJsWhitespace c
          · simp only [splitWsGo, hws, if_true]
            exact ih none
          · simp only [splitWsGo, hws, Bool.false_eq_true, if_false]
            exact ih (some [c])

theorem splitWs_ne_nil (s : List Char) : splitWs s ≠ [] :=
  splitWsGo_ne_nil s (some [])

/-- With overlap < chunkSize, fuel + 1 iterations suffice from the Nat
start position s whenever words.length ≤ s + fuel. -/
theorem chunkLoop_isSome (cs ov : Nat) (h : ov < cs) (words : List String) :
    ∀ (fuel s : Nat), words.length ≤ s + fuel →
      (QAEngine.chunkLoop cs ov words (fuel + 1) (s : Int)).isSome := by
  intro fuel
  induction fuel with
  | zero =>
      intro s hs
      rw [QAEngine.chunkLoop]
      have hnlt : ¬ ((s : Int) < (words.length : Int)) := by omega
      rw [if_neg hnlt]
      rfl
  | succ fuel ih =>
      intro s hs
      rw [QAEngine.chunkLoop]
      by_cases hlt : (s : Int) < (words.length : Int)
      · rw [if_pos hlt]
        by_cases hend : min ((s : Int) + (cs : Int)) (words.length : Int) = (words.length : Int)
        · rw [if_pos hend]
          rfl
        · rw [if_neg hend]
          have hcast : (s : Int) + ((cs : Int) - (ov : Int)) = ((s + (cs - ov) : Nat) : Int) := by
            push_cast [Nat.cast_sub (Nat.le_of_lt h)]
            ring
          rw [hcast]
          have hrec := ih (s + (cs - ov)) (by omega)
          cases hc : QAEngine.chunkLoop cs ov words (fuel + 1) ((s + (cs - ov) : Nat) : Int) with
          | none => rw [hc] at hrec; simp at hrec
          | some rest => simp [hc]
      · rw [if_neg hlt]
        rfl

/-- Every chunk list produced from a start position has its i-th chunk
starting at start + i * (chunkSize - overlap). -/
theorem chunkLoop_startIndex (cs ov : Nat) (words : List String) :
    ∀ (fuel : Nat) (start : Int) (res : List QAEngine.Chunk),
      QAEngine.chunkLoop cs ov words fuel start = some res →
      ∀ (i : Nat) (hi : i < res.length),
        (res.get ⟨i, hi⟩).startIndex = start + (i : Int) * ((cs : Int) - (ov : Int)) := by
  intro fuel
  induction fuel with
  | zero => intro start res h; simp [QAEngine.chunkLoop] at h
  | succ fuel ih =>
      intro start res h
      rw [QAEngine.chunkLoop] at h
      by_cases hlt : start < (words.length : Int)
      · rw [if_pos hlt] at h
        by_cases hend : min (start + (cs : Int)) (words.length : Int) = (words.length : Int)
        · rw [if_pos hend] at h
          have hres : res = [QAEngine.mkChunk words start (min (start + (cs : Int)) (words.length : Int))] :=
            (Option.some_inj.mp h).symm
          subst hres
          intro i hi
          cases i with
          | zero => simp [QAEngine.mkChunk]
          | succ j => exact absurd hi (by simp)
        · rw [if_neg hend] at h
          cases hc : QAEngine.chunkLoop cs ov words fuel (start + ((cs : Int) - (ov : Int))) with
          | none => rw [hc] at h; simp at h
          | some rest =>
              rw [hc] at h
              simp only [Option.map_some', Option.some_inj] at h
              subst h
              intro i hi
              cases i with
              | zero => simp [QAEngine.mkChunk]
              | succ i =>
                  have hrec := ih (start + ((cs : Int) - (ov : Int))) rest hc i
                    (by simpa using Nat.lt_of_succ_lt_succ hi)
                  simp only [List.length_cons] at hi
                  show (rest.get ⟨i, Nat.lt_of_succ_lt_succ hi⟩).startIndex = _
                  rw [hrec]
                  push_cast
                  ring
      · rw [if_neg hlt] at h
        have hres : res = [] := (Option.some_inj.mp h).symm
        subst hres
        intro i hi
        simp at hi

/-- C3: for every text and parameters with overlap < chunkSize, the
token-overlap chunking (QAEngine.chunkTranscript) succeeds within the
stated fuel and yields windows whose i-th member starts at token index
i * (chunkSize - overlap); it yields exactly one window when the token
count is at most chunkSize; and concretely chunking w1..w5 with
chunkSize 3, overlap 1 yields exactly the windows for tokens [0,3) and
[2,5), with texts w1 w2 w3 and w3 w4 w5. -/
theorem qa_chunk_overlap_spec (cs ov : Nat) (text : String) (h : ov < cs) :
    (∃ res, QAEngine.chunkTranscript cs ov text = some res ∧
      (∀ (i : Nat) (hi : i < res.length),
        (res.get ⟨i, hi⟩).startIndex = (i : Int) * ((cs : Int) - (ov : Int))) ∧
      (((splitWs text.data).map String.mk).length ≤ cs → res.length = 1)) ∧
    QAEngine.chunkTranscript 3 1 "w1 w2 w3 w4 w5" =
      some [⟨"w1 w2 w3", 0, 3⟩, ⟨"w3 w4 w5", 2, 5⟩] := by
  refine ⟨?_, by decide⟩
  have hsome := chunkLoop_isSome cs ov h ((splitWs text.data).map String.mk)
    ((splitWs text.data).map String.mk).length 0 (by omega)
  rw [Option.isSome_iff_exists] at hsome
  obtain ⟨res, hres⟩ := hsome
  have hres' : QAEngine.chunkTranscript cs ov text = some res := by
    unfold QAEngine.chunkTranscript
    simpa using hres
  refine ⟨res, hres', ?_, ?_⟩
  · intro i hi
    have := chunkLoop_startIndex cs ov ((splitWs text.data).map String.mk) _ 0 res
      (by simpa using hres) i hi
    simpa using this
  · intro hcount
    have hpos : 0 < ((splitWs text.data).map String.mk).length := by
      have := splitWs_ne_nil text.data
      simp [List.length_pos]
      intro hc
      exact this hc
    rw [QAEngine.chunkLoop] at hres
    rw [if_pos (by exact_mod_cast hpos)] at hres
    rw [if_pos (by
      rw [min_eq_right]
      omega)] at hres
    have hres2 := Option.some_inj.mp hres
    rw [← hres2]
    simp

/-- Witness for qa_chunk_overlap_spec at chunkSize 3, overlap 1 on the
five-token text. -/
theorem qa_chunk_overlap_spec_witness :
    (∃ res, QAEngine.chunkTranscript 3 1 "w1 w2 w3 w4 w5" = some res ∧
      (∀ (i : Nat) (hi : i < res.length),
        (res.get ⟨i, hi⟩).startIndex = (i : Int) * ((3 : Int) - (1 : Int))) ∧
      (((splitWs ("w1 w2 w3 w4 w5" : String).data).map String.mk).length ≤ 3 → res.length = 1)) ∧
    QAEngine.chunkTranscript 3 1 "w1 w2 w3 w4 w5" =
      some [⟨"w1 w2 w3", 0, 3⟩, ⟨"w3 w4 w5", 2, 5⟩] :=
  qa_chunk_overlap_spec 3 1 "w1 w2 w3 w4 w5" (by decide)

/-! ### JS Map lemmas -/

theorem jsMapGet_jsMapSet_same {α : Type} :
    ∀ (m : List (String × α)) (k : String) (v : α),
      jsMapGet (jsMapSet m k v) k = some v := by
  intro m
  induction m with
  | nil => intro k v; simp [jsMapSet, jsMapGet]
  | cons p rest ih =>
      intro k v
      by_cases hk : p.1 = k
      · simp [jsMapSet, hk, jsMapGet]
      · simp [jsMapSet, hk, jsMapGet]
        exact ih k v

theorem jsMapGet_jsMapSet_other {α : Type} :
    ∀ (m : List (String × α)) (k k' : String) (v : α), k' ≠ k →
      jsMapGet (jsMapSet m k v) k' = jsMapGet m k' := by
  intro m
  induction m with
  | nil =>
      intro k k' v hne
      simp only [jsMapSet, jsMapGet]
      rw [if_neg (fun h => hne h.symm)]
  | cons p rest ih =>
      intro k k' v hne
      by_cases hk : p.1 = k
      · subst hk
        simp only [jsMapSet, if_pos rfl, jsMapGet]
        rw [if_neg (fun h : p.1 = k' => hne h.symm)]
        rw [if_neg (fun h : p.1 = k' => hne h.symm)]
      · simp only [jsMapSet, hk, if_false, jsMapGet]
        by_cases hk' : p.1 = k'
        · simp [hk']
        · simp only [hk', if_false]
          exact ih k k' v hne

theorem jsMapGet_jsMapDelete_other {α : Type} :
    ∀ (m : List (String × α)) (k k' : String), k' ≠ k →
      jsMapGet (jsMapDelete m k) k' = jsMapGet m k' := by
  intro m
  induction m with
  | nil => intro k k' _; simp [jsMapDelete]
  | cons p rest ih =>
      intro k k' hne
      by_cases hk : p.1 = k
      · subst hk
        simp only [jsMapDelete, eq_self_iff_true, if_true, jsMapGet]
        rw [if_neg (fun h : p.1 = k' => hne h.symm)]
      · simp only [jsMapDelete, hk, if_false, jsMapGet]
        by_cases hk' : p.1 = k'
        · simp [hk']
        · simp only [hk', if_false]
          exact ih k k' hne

theorem jsMapGet_eq_none_of_not_mem {α : Type} :
    ∀ (m : List (String × α)) (k : String), (∀ p ∈ m, p.1 ≠ k) →
      jsMapGet m k = none := by
  intro m
  induction m with
  | nil => intro k _; rfl
  | cons p rest ih =>
      intro k h
      simp only [jsMapGet, h p (List.mem_cons_self p rest), if_false]
      exact ih k (fun q hq => h q (List.mem_cons_of_mem p hq))

theorem jsMapGet_jsMapDelete_same {α : Type} :
    ∀ (m : List (String × α)) (k : String), (m.map Prod.fst).Nodup →
      jsMapGet (jsMapDelete m k) k = none := by
  intro m
  induction m with
  | nil => intro k _; rfl
  | cons p rest ih =>
      intro k hnd
      simp only [List.map_cons, List.nodup_cons] at hnd
      by_cases hk : p.1 = k
      · subst hk
        simp only [jsMapDelete, if_pos rfl]
        refine jsMapGet_eq_none_of_not_mem rest p.1 ?_
        intro q hq hqk
        exact hnd.1 (hqk ▸ List.mem_map_of_mem Prod.fst hq)
      · simp only [jsMapDelete, hk, if_false, jsMapGet]
        exact ih k hnd.2

theorem jsMapDelete_length {α : Type} :
    ∀ (m : List (String × α)) (k : String) (v : α), jsMapGet m k = some v →
      (jsMapDelete m k).length + 1 = m.length := by
  intro m
  induction m with
  | nil => intro k v h; simp [jsMapGet] at h
  | cons p rest ih =>
      intro k v h
      by_cases hk : p.1 = k
      · simp [jsMapDelete, hk]
      · simp only [jsMapGet, hk, if_false] at h
        simp only [jsMapDelete, hk, if_false, List.length_cons]
        rw [ih k v h]

theorem jsMapSet_append {α : Type} :
    ∀ (m : List (String × α)) (k : String) (v : α), (∀ p ∈ m, p.1 ≠ k) →
      jsMapSet m k v = m ++ [(k, v)] := by
  intro m
  induction m with
  | nil => intro k v _; rfl
  | cons p rest ih =>
      intro k v h
      simp only [jsMapSet, h p (List.mem_cons_self p rest), if_false, List.cons_append]
      rw [ih k v (fun q hq => h q (List.mem_cons_of_mem p hq))]

theorem mem_jsMapSet {α : Type} :
    ∀ (m : List (String × α)) (k : String) (v : α) (q : String × α),
      q ∈ jsMapSet m k v → q = (k, v) ∨ q ∈ m := by
  intro m
  induction m with
  | nil => intro k v q hq; simp [jsMapSet] at hq; exact Or.inl hq
  | cons p rest ih =>
      intro k v q hq
      by_cases hk : p.1 = k
      · simp only [jsMapSet, hk, if_pos rfl] at hq
        rcases List.mem_cons.mp hq with h | h
        · exact Or.inl h
        · exact Or.inr (List.mem_cons_of_mem p h)
      · simp only [jsMapSet, hk, if_false] at hq
        rcases List.mem_cons.mp hq with h | h
        · exact Or.inr (h ▸ List.mem_cons_self p rest)
        · rcases ih k v q h with h' | h'
          · exact Or.inl h'
          · exact Or.inr (List.mem_cons_of_mem p h')

/-! ### DocumentCache (ContextManager.cacheTranscript / getCachedTranscript) -/

/-- Repeated insertion into the cache from any state within capacity:
when every key is a nonempty string (so the truthiness guard never skips
an eviction), the result is the suffix of the concatenated entry sequence
that fits the capacity (the oldest entries having been evicted first). -/
theorem cacheTranscript_fold (cap : Nat) (hcap : 1 ≤ cap) :
    ∀ (pairs : List (String × Transcript)) (c : ContextManager.Cache),
      c.length ≤ cap → (((c ++ pairs).map Prod.fst)).Nodup →
      (∀ p ∈ c ++ pairs, p.1 ≠ "") →
      pairs.foldl (fun acc p => ContextManager.cacheTranscript cap acc p.1 p.2) c =
        (c ++ pairs).drop (c.length + pairs.length - cap) := by
  intro pairs
  induction pairs with
  | nil =>
      intro c hlen _ _
      simp only [List.foldl_nil, List.append_nil, List.length_nil, Nat.add_zero]
      rw [Nat.sub_eq_zero_of_le (by omega), List.drop_zero]
  | cons p ps ih =>
      intro c hlen hnd hne
      simp only [List.foldl_cons]
      by_cases hfull : cap ≤ c.length
      · have hceq : c.length = cap := Nat.le_antisymm hlen hfull
        cases c with
        | nil =>
            exfalso
            simp only [List.length_nil] at hceq
            omega
        | cons q rest =>
            have hnd1 : ((rest ++ p :: ps).map Prod.fst).Nodup := by
              have h0 : (((q :: rest) ++ p :: ps).map Prod.fst).Nodup := hnd
              simp only [List.cons_append, List.map_cons, List.nodup_cons] at h0
              exact h0.2
            have hdisj : ∀ r ∈ rest, r.1 ≠ p.1 := by
              intro r hr hrk
              have h2 : (rest.map Prod.fst ++ (p :: ps).map Prod.fst).Nodup := by
                simpa using hnd1
              exact (List.disjoint_of_nodup_append h2)
                (hrk ▸ List.mem_map_of_mem Prod.fst hr)
                (by simp)
            have hq : ¬ (q.1 = "") := hne q (by simp)
            have hstep : ContextManager.cacheTranscript cap (q :: rest) p.1 p.2 =
                rest ++ [p] := by
              simp only [ContextManager.cacheTranscript, if_pos hfull, if_neg hq,
                jsMapDelete, eq_self_iff_true, if_true]
              rw [jsMapSet_append rest p.1 p.2 hdisj]
            rw [hstep]
            have hceq2 : rest.length + 1 = cap := by
              simpa using hceq
            have hlen2 : (rest ++ [p]).length ≤ cap := by
              simp only [List.length_append, List.length_cons, List.length_nil]
              omega
            have hnd2 : (((rest ++ [p]) ++ ps).map Prod.fst).Nodup := by
              have : rest ++ [p] ++ ps = rest ++ p :: ps := by simp
              rw [this]
              exact hnd1
            have hne2 : ∀ r ∈ (rest ++ [p]) ++ ps, r.1 ≠ "" := by
              intro r hr
              refine hne r ?_
              simp only [List.mem_append, List.mem_cons, List.mem_singleton] at hr ⊢
              tauto
            rw [ih (rest ++ [p]) hlen2 hnd2 hne2]
            have e1 : rest ++ [p] ++ ps = rest ++ p :: ps := by simp
            have e2 : (rest ++ [p]).length + ps.length - cap = ps.length := by
              simp only [List.length_append, List.length_cons, List.length_nil]
              omega
            have e3 : (q :: rest).length + (p :: ps).length - cap = ps.length + 1 := by
              simp only [List.length_cons]
              omega
            rw [e1, e2, e3, List.cons_append, List.drop_succ_cons]
      · have hdisj : ∀ r ∈ c, r.1 ≠ p.1 := by
          intro r hr hrk
          have h2 : (c.map Prod.fst ++ (p :: ps).map Prod.fst).Nodup := by
            simpa using hnd
          exact (List.disjoint_of_nodup_append h2)
            (hrk ▸ List.mem_map_of_mem Prod.fst hr)
            (by simp)
        have hstep : ContextManager.cacheTranscript cap c p.1 p.2 = c ++ [p] := by
          simp only [ContextManager.cacheTranscript, if_neg hfull]
          rw [jsMapSet_append c p.1 p.2 hdisj]
        rw [hstep]
        have hnd2 : (((c ++ [p]) ++ ps).map Prod.fst).Nodup := by
          have : c ++ [p] ++ ps = c ++ p :: ps := by simp
          rw [this]
          exact hnd
        have hlen2 : (c ++ [p]).length ≤ cap := by
          simp only [List.length_append, List.length_cons, List.length_nil]
          omega
        have hne2 : ∀ r ∈ (c ++ [p]) ++ ps, r.1 ≠ "" := by
          intro r hr
          refine hne r ?_
          simp only [List.mem_append, List.mem_cons, List.mem_singleton] at hr ⊢
          tauto
        rw [ih (c ++ [p]) hlen2 hnd2 hne2]
        have e1 : c ++ [p] ++ ps = c ++ p :: ps := by simp
        have e2 : (c ++ [p]).length + ps.length - cap =
            c.length + (p :: ps).length - cap := by
          simp only [List.length_append, List.length_cons, List.length_nil]
          omega
        rw [e1, e2]

/-- C5 counterexample: the size bound of the original claim fails at the
empty-string key.  With capacity 2, putting the keys empty-string, B and
C from an empty cache leaves THREE entries: at the third put the cache is
at capacity but the oldest key is the empty string, which is falsy in JS,
so the if (firstKey) guard of cacheTranscript skips the eviction and the
size exceeds the capacity instead of equalling it. -/
theorem cache_capacity_counterexample :
    ([("", sampleT "E"), ("B", sampleT "B"), ("C", sampleT "C")].foldl
      (fun acc p => ContextManager.cacheTranscript 2 acc p.1 p.2) []).length = 3 ∧
    ¬ (([("", sampleT "E"), ("B", sampleT "B"), ("C", sampleT "C")].foldl
      (fun acc p => ContextManager.cacheTranscript 2 acc p.1 p.2) []).length = 2) :=
  ⟨by decide, by decide⟩

/-- C5 amended: starting from an empty cache, inserting more than cap
distinct NONEMPTY keys (cap at least 1, as the configured capacity 1000
is) leaves exactly the cap newest entries, in insertion order, so the
size is exactly cap with the oldest entries evicted first; an
empty-string key is exempt from eviction by the JS truthiness guard, so
the size bound does not hold for it.  Concretely, with capacity 2,
put A, put B, put C leaves get A absent while get B and get C return the
stored documents. -/
theorem cache_capacity_spec (cap : Nat) (pairs : List (String × Transcript))
    (hcap : 1 ≤ cap) (hnd : (pairs.map Prod.fst).Nodup) (hlen : cap < pairs.length)
    (hne : ∀ p ∈ pairs, p.1 ≠ "") :
    pairs.foldl (fun acc p => ContextManager.cacheTranscript cap acc p.1 p.2) [] =
      pairs.drop (pairs.length - cap) ∧
    (pairs.foldl (fun acc p => ContextManager.cacheTranscript cap acc p.1 p.2) []).length
      = cap ∧
    (ContextManager.getCachedTranscript 7 0 cacheABC "A").1 = none ∧
    (ContextManager.getCachedTranscript 7 0 cacheABC "B").1 = some (sampleT "B") ∧
    (ContextManager.getCachedTranscript 7 0 cacheABC "C").1 = some (sampleT "C") := by
  have hfold := cacheTranscript_fold cap hcap pairs []
    (by simp) (by simpa using hnd) (by simpa using hne)
  simp only [List.nil_append, List.length_nil, Nat.zero_add] at hfold
  refine ⟨hfold, ?_, by decide, by decide, by decide⟩
  rw [hfold, List.length_drop]
  omega

/-- Witness for cache_capacity_spec at capacity 2 and the three distinct
keys A, B, C. -/
theorem cache_capacity_spec_witness :
    [("A", sampleT "A"), ("B", sampleT "B"), ("C", sampleT "C")].foldl
      (fun acc p => ContextManager.cacheTranscript 2 acc p.1 p.2) [] =
      [("A", sampleT "A"), ("B", sampleT "B"), ("C", sampleT "C")].drop
        ([("A", sampleT "A"), ("B", sampleT "B"), ("C", sampleT "C")].length - 2) ∧
    ([("A", sampleT "A"), ("B", sampleT "B"), ("C", sampleT "C")].foldl
      (fun acc p => ContextManager.cacheTranscript 2 acc p.1 p.2) []).length = 2 ∧
    (ContextManager.getCachedTranscript 7 0 cacheABC "A").1 = none ∧
    (ContextManager.getCachedTranscript 7 0 cacheABC "B").1 = some (sampleT "B") ∧
    (ContextManager.getCachedTranscript 7 0 cacheABC "C").1 = some (sampleT "C") :=
  cache_capacity_spec 2 [("A", sampleT "A"), ("B", sampleT "B"), ("C", sampleT "C")]
    (by decide) (by decide) (by decide) (by decide)

/-- C6 counterexample: with capacity 2, after put A then put B the cache
is at capacity and holds A and B; re-inserting the existing key B evicts
the oldest entry A, so put on an existing key at capacity does evict
another entry, contradicting the claim that no eviction occurs. -/
theorem cache_put_reinsert_counterexample :
    ContextManager.cacheTranscript 2
      (ContextManager.cacheTranscript 2
        (ContextManager.cacheTranscript 2 [] "A" (sampleT "A")) "B" (sampleT "B"))
      "B" (sampleT "B2") = [("B", sampleT "B2")] ∧
    jsMapGet (ContextManager.cacheTranscript 2
      (ContextManager.cacheTranscript 2
        (ContextManager.cacheTranscript 2 [] "A" (sampleT "A")) "B" (sampleT "B"))
      "B" (sampleT "B2")) "A" = none := by
  exact ⟨by decide, by decide⟩

/-- C6 amended: cacheTranscript evicts the single oldest entry whenever
the cache has reached capacity and the oldest key is a nonempty string
(an empty-string oldest key is falsy in JS, so the if (firstKey) guard
skips the eviction) -- whether or not the inserted key is already
present.  On re-insertion of a present key at capacity, the oldest entry
is deleted (the re-inserted key itself when it is oldest), the key is
stored with the new value, and every entry other than the oldest and the
inserted key is preserved. -/
theorem cache_put_reinsert_amended (cap : Nat) (k0 : String) (v0 : Transcript)
    (rest : ContextManager.Cache) (k : String) (v : Transcript)
    (hnd : (((k0, v0) :: rest).map Prod.fst).Nodup)
    (hcap : cap ≤ ((k0, v0) :: rest).length)
    (hk0 : k0 ≠ "")
    (_hmem : (jsMapGet ((k0, v0) :: rest) k).isSome) :
    ContextManager.cacheTranscript cap ((k0, v0) :: rest) k v = jsMapSet rest k v ∧
    jsMapGet (ContextManager.cacheTranscript cap ((k0, v0) :: rest) k v) k = some v ∧
    (k0 ≠ k → jsMapGet (ContextManager.cacheTranscript cap ((k0, v0) :: rest) k v) k0 = none) ∧
    (∀ k', k' ≠ k0 → k' ≠ k →
      jsMapGet (ContextManager.cacheTranscript cap ((k0, v0) :: rest) k v) k' =
        jsMapGet ((k0, v0) :: rest) k') := by
  have hstep : ContextManager.cacheTranscript cap ((k0, v0) :: rest) k v =
      jsMapSet rest k v := by
    simp only [ContextManager.cacheTranscript, if_pos hcap, if_neg hk0,
      jsMapDelete, eq_self_iff_true, if_true]
  refine ⟨hstep, ?_, ?_, ?_⟩
  · rw [hstep]
    exact jsMapGet_jsMapSet_same rest k v
  · intro hk0
    rw [hstep, jsMapGet_jsMapSet_other rest k k0 v hk0]
    refine jsMapGet_eq_none_of_not_mem rest k0 ?_
    intro q hq hqk
    have h0 : (k0 :: rest.map Prod.fst).Nodup := by simpa using hnd
    exact (List.nodup_cons.mp h0).1 (hqk ▸ List.mem_map_of_mem Prod.fst hq)
  · intro k' h0 hk
    rw [hstep, jsMapGet_jsMapSet_other rest k k' v hk]
    show jsMapGet rest k' = jsMapGet ((k0, v0) :: rest) k'
    simp only [jsMapGet]
    rw [if_neg (fun h : k0 = k' => h0 h.symm)]

/-- Witness for cache_put_reinsert_amended: capacity 2, cache holding A
then B, re-inserting B. -/
theorem cache_put_reinsert_amended_witness :
    ContextManager.cacheTranscript 2 [("A", sampleT "A"), ("B", sampleT "B")] "B" (sampleT "B2")
      = jsMapSet [("B", sampleT "B")] "B" (sampleT "B2") ∧
    jsMapGet (ContextManager.cacheTranscript 2 [("A", sampleT "A"), ("B", sampleT "B")]
      "B" (sampleT "B2")) "B" = some (sampleT "B2") ∧
    ("A" ≠ "B" → jsMapGet (ContextManager.cacheTranscript 2
      [("A", sampleT "A"), ("B", sampleT "B")] "B" (sampleT "B2")) "A" = none) ∧
    (∀ k', k' ≠ "A" → k' ≠ "B" →
      jsMapGet (ContextManager.cacheTranscript 2 [("A", sampleT "A"), ("B", sampleT "B")]
        "B" (sampleT "B2")) k' =
        jsMapGet [("A", sampleT "A"), ("B", sampleT "B")] k') :=
  cache_put_reinsert_amended 2 "A" (sampleT "A") [("B", sampleT "B")] "B" (sampleT "B2")
    (by decide) (by decide) (by decide) (by decide)

/-- C7: for a cached entry under a key, get (getCachedTranscript) with a
current time making the entry older than the TTL returns absent, removes
exactly that entry (the size drops by one and the key no longer
resolves); otherwise it returns the stored document unchanged and leaves
the cache untouched. -/
theorem cache_get_ttl_spec (ttlDays : Nat) (now : Int) (cache : ContextManager.Cache)
    (videoId : String) (t : Transcript)
    (hnd : (cache.map Prod.fst).Nodup) (hget : jsMapGet cache videoId = some t) :
    ((ttlDays : Int) * 24 * 60 * 60 * 1000 < now - t.fetched_at →
      (ContextManager.getCachedTranscript ttlDays now cache videoId).1 = none ∧
      (ContextManager.getCachedTranscript ttlDays now cache videoId).2.length + 1
        = cache.length ∧
      jsMapGet (ContextManager.getCachedTranscript ttlDays now cache videoId).2 videoId
        = none) ∧
    (¬ ((ttlDays : Int) * 24 * 60 * 60 * 1000 < now - t.fetched_at) →
      ContextManager.getCachedTranscript ttlDays now cache videoId = (some t, cache)) := by
  simp only [ContextManager.getCachedTranscript, hget]
  constructor
  · intro hexp
    rw [if_pos hexp]
    exact ⟨rfl, jsMapDelete_length cache videoId t hget,
      jsMapGet_jsMapDelete_same cache videoId hnd⟩
  · intro hexp
    rw [if_neg hexp]

/-- Witness for cache_get_ttl_spec: a one-entry cache whose entry was
fetched at time 0, probed one millisecond past the seven-day TTL. -/
theorem cache_get_ttl_spec_witness :
    ((7 : Int) * 24 * 60 * 60 * 1000 < 604800001 - (sampleT "A").fetched_at →
      (ContextManager.getCachedTranscript 7 604800001 [("A", sampleT "A")] "A").1 = none ∧
      (ContextManager.getCachedTranscript 7 604800001 [("A", sampleT "A")] "A").2.length + 1
        = [("A", sampleT "A")].length ∧
      jsMapGet (ContextManager.getCachedTranscript 7 604800001 [("A", sampleT "A")] "A").2 "A"
        = none) ∧
    (¬ ((7 : Int) * 24 * 60 * 60 * 1000 < 604800001 - (sampleT "A").fetched_at) →
      ContextManager.getCachedTranscript 7 604800001 [("A", sampleT "A")] "A"
        = (some (sampleT "A"), [("A", sampleT "A")])) :=
  cache_get_ttl_spec 7 604800001 [("A", sampleT "A")] "A" (sampleT "A")
    (by decide) (by decide)

/-! ### Misconfigured chunking (chunkSize at most overlap) -/

/-- With chunkSize at most overlap and more tokens than chunkSize, the
chunking loop runs forever: from any nonpositive start position it is
still running after every fuel bound (startIndex never advances past 0,
and endIndex never reaches the end of the words). -/
theorem chunkLoop_stuck (cs ov : Nat) (words : List String)
    (hco : cs ≤ ov) (hlen : cs < words.length) :
    ∀ (fuel : Nat) (start : Int), start ≤ 0 →
      QAEngine.chunkLoop cs ov words fuel start = none := by
  intro fuel
  induction fuel with
  | zero => intro start _; rfl
  | succ fuel ih =>
      intro start hstart
      rw [QAEngine.chunkLoop]
      have hlt : start < (words.length : Int) := by omega
      rw [if_pos hlt]
      have hne : ¬ (min (start + (cs : Int)) (words.length : Int) = (words.length : Int)) := by
        rw [min_eq_left (by omega)]
        omega
      rw [if_neg hne]
      rw [ih (start + ((cs : Int) - (ov : Int))) (by omega)]
      rfl

/-- C1 amended: no InvalidConfiguration is ever signalled -- validateConfig
inspects only the credentials and accepts any chunking parameters -- and
with chunkSize at most overlap on a text of more than chunkSize tokens,
chunkTranscript is not rejected but silently fails to terminate (the loop
is still running after every fuel bound). -/
theorem chunk_config_not_validated (cs ov fuel : Nat) (words : List String)
    (botToken geminiKey openaiKey : String)
    (h1 : cs ≤ ov) (h2 : cs < words.length) (h3 : ¬ botToken = "")
    (h4 : ¬ geminiKey = "" ∨ ¬ openaiKey = "") :
    validateConfigErrors botToken geminiKey openaiKey = [] ∧
    QAEngine.chunkLoop cs ov words fuel 0 = none := by
  constructor
  · unfold validateConfigErrors
    rw [if_neg h3, if_neg (by tauto)]
    rfl
  · exact chunkLoop_stuck cs ov words h1 h2 fuel 0 le_rfl

/-- Witness for chunk_config_not_validated: chunkSize = overlap = 3 on
five tokens with valid credentials, fuel 100. -/
theorem chunk_config_not_validated_witness :
    validateConfigErrors "token" "key" "" = [] ∧
    QAEngine.chunkLoop 3 3 ["w1", "w2", "w3", "w4", "w5"] 100 0 = none :=
  chunk_config_not_validated 3 3 100 ["w1", "w2", "w3", "w4", "w5"] "token" "key" ""
    (by decide) (by decide) (by decide) (Or.inl (by decide))

/-- C1 counterexample: with chunkSize = overlap = 3 (so windowSize at most
overlap), configuration validation raises no error at all, and chunking
on a five-token text is not rejected: it simply never finishes (still
running when the fuel tokenCount + 1 is exhausted). -/
theorem chunk_config_counterexample :
    validateConfigErrors "token" "key" "" = [] ∧
    QAEngine.chunkTranscript 3 3 "w1 w2 w3 w4 w5" = none :=
  ⟨by decide, by decide⟩

/-! ### Session history (ContextManager.updateHistory) -/

theorem trim_eq {α : Type} (n : Nat) (l : List α) :
    (if n < l.length then l.drop (l.length - n) else l) = l.drop (l.length - n) := by
  split
  · rfl
  · rw [Nat.sub_eq_zero_of_le (by omega), List.drop_zero]

/-- Keeping the last n elements twice in a row is the same as keeping the
last n of the whole concatenation. -/
theorem drop_lastN {α : Type} (n : Nat) (y z : List α) :
    (y.drop (y.length - n) ++ z).drop ((y.drop (y.length - n) ++ z).length - n) =
      (y ++ z).drop ((y ++ z).length - n) := by
  by_cases hy : y.length ≤ n
  · rw [Nat.sub_eq_zero_of_le hy, List.drop_zero]
  · have hlen : (y.drop (y.length - n)).length = n := by
      rw [List.length_drop]
      omega
    have hsplit : y.take (y.length - n) ++ y.drop (y.length - n) = y :=
      List.take_append_drop _ y
    conv_rhs => rw [← hsplit]
    rw [List.append_assoc]
    have hidx : (y.take (y.length - n) ++ (y.drop (y.length - n) ++ z)).length - n =
        (y.take (y.length - n)).length + ((y.drop (y.length - n) ++ z).length - n) := by
      simp only [List.length_append, hlen, List.length_take]
      omega
    rw [hidx, List.drop_append]

/-- Keeping the last n of a concatenation whose second part already has at
least n elements ignores the first part. -/
theorem lastN_append_of_le {α : Type} (n : Nat) (y z : List α) (h : n ≤ z.length) :
    (y ++ z).drop ((y ++ z).length - n) = z.drop (z.length - n) := by
  have hidx : (y ++ z).length - n = y.length + (z.length - n) := by
    simp only [List.length_append]
    omega
  rw [hidx, List.drop_append]

/-- One updateHistory call on a present session: the entry is appended,
the history trimmed to the last maxHistoryPairs entries, last_accessed
touched. -/
theorem updateHistory_some (now : Int) (m : List (String × Session)) (u q a : String)
    (s : Session) (h : jsMapGet m u = some s) :
    ContextManager.updateHistory now m u q a =
      jsMapSet m u { s with
        history := (s.history ++ [(⟨q, a, now⟩ : QAPair)]).drop
          ((s.history ++ [(⟨q, a, now⟩ : QAPair)]).length - configQa.maxHistoryPairs),
        last_accessed := now } := by
  simp only [ContextManager.updateHistory, h]
  rw [trim_eq]

/-- Folding updateHistory over a list of appends, starting from a session
whose history respects the bound, yields the last maxHistoryPairs entries
of the concatenated history. -/
theorem updateHistory_fold (u : String) :
    ∀ (qas : List (String × String × Int)) (m : List (String × Session)) (s : Session),
      jsMapGet m u = some s → s.history.length ≤ configQa.maxHistoryPairs →
      ∃ s', jsMapGet
          (qas.foldl (fun acc p => ContextManager.updateHistory p.2.2 acc u p.1 p.2.1) m) u
          = some s' ∧
        s'.history = (s.history ++ qas.map mkQA).drop
          ((s.history ++ qas.map mkQA).length - configQa.maxHistoryPairs) := by
  intro qas
  induction qas with
  | nil =>
      intro m s h hh
      refine ⟨s, by simpa using h, ?_⟩
      simp only [List.map_nil, List.append_nil]
      rw [Nat.sub_eq_zero_of_le hh, List.drop_zero]
  | cons p ps ih =>
      intro m s h hh
      simp only [List.foldl_cons]
      have hstep := updateHistory_some p.2.2 m u p.1 p.2.1 s h
      have h1 : jsMapGet (ContextManager.updateHistory p.2.2 m u p.1 p.2.1) u =
          some { s with
            history := (s.history ++ [(⟨p.1, p.2.1, p.2.2⟩ : QAPair)]).drop
              ((s.history ++ [(⟨p.1, p.2.1, p.2.2⟩ : QAPair)]).length
                - configQa.maxHistoryPairs),
            last_accessed := p.2.2 } := by
        rw [hstep]
        exact jsMapGet_jsMapSet_same m u _
      have hh1 : ((s.history ++ [(⟨p.1, p.2.1, p.2.2⟩ : QAPair)]).drop
          ((s.history ++ [(⟨p.1, p.2.1, p.2.2⟩ : QAPair)]).length
            - configQa.maxHistoryPairs)).length ≤ configQa.maxHistoryPairs := by
        rw [List.length_drop]
        omega
      obtain ⟨s', hs', hhist⟩ := ih (ContextManager.updateHistory p.2.2 m u p.1 p.2.1) _ h1 hh1
      refine ⟨s', hs', ?_⟩
      rw [hhist]
      show ((s.history ++ [mkQA p]).drop ((s.history ++ [mkQA p]).length
            - configQa.maxHistoryPairs) ++ ps.map mkQA).drop
          (((s.history ++ [mkQA p]).drop ((s.history ++ [mkQA p]).length
            - configQa.maxHistoryPairs) ++ ps.map mkQA).length - configQa.maxHistoryPairs)
        = (s.history ++ (p :: ps).map mkQA).drop
            ((s.history ++ (p :: ps).map mkQA).length - configQa.maxHistoryPairs)
      rw [drop_lastN configQa.maxHistoryPairs (s.history ++ [mkQA p]) (ps.map mkQA)]
      rw [List.append_assoc]
      simp only [List.singleton_append, List.map_cons]

/-- C8: (a) for any owner with a present session whose history respects
the bound, appending n > 5 entries leaves exactly the 5 most recent
appended entries in insertion order (entries 1..n-5 dropped); (b) one
updateHistory call keeps every stored history within the bound 5 when all
stored histories were within the bound; (c) updateHistory for an owner
with no session returns the session map unchanged (a warning-logged
no-op, not an error). -/
theorem history_bound_spec (u : String) (qas : List (String × String × Int))
    (m : List (String × Session)) (s : Session)
    (hqas : configQa.maxHistoryPairs < qas.length)
    (h : jsMapGet m u = some s) (hh : s.history.length ≤ configQa.maxHistoryPairs) :
    (∃ s', jsMapGet
        (qas.foldl (fun acc p => ContextManager.updateHistory p.2.2 acc u p.1 p.2.1) m) u
        = some s' ∧
      s'.history = (qas.map mkQA).drop (qas.length - configQa.maxHistoryPairs)) ∧
    (∀ (m' : List (String × Session)) (now : Int) (u' q a : String),
      (∀ p ∈ m', p.2.history.length ≤ configQa.maxHistoryPairs) →
      ∀ p ∈ ContextManager.updateHistory now m' u' q a,
        p.2.history.length ≤ configQa.maxHistoryPairs) ∧
    (∀ (m' : List (String × Session)) (now : Int) (u' q a : String),
      jsMapGet m' u' = none → ContextManager.updateHistory now m' u' q a = m') := by
  refine ⟨?_, ?_, ?_⟩
  · obtain ⟨s', hs', hhist⟩ := updateHistory_fold u qas m s h hh
    refine ⟨s', hs', ?_⟩
    rw [hhist, lastN_append_of_le _ _ _ (by simp only [List.length_map]; omega)]
    rw [List.length_map]
  · intro m' now u' q a hinv p hp
    rw [ContextManager.updateHistory] at hp
    cases hget : jsMapGet m' u' with
    | none => rw [hget] at hp; exact hinv p hp
    | some s0 =>
        rw [hget] at hp
        rcases mem_jsMapSet m' u' _ p hp with hpe | hpe
        · subst hpe
          simp only []
          rw [trim_eq, List.length_drop]
          omega
        · exact hinv p hpe
  · intro m' now u' q a hget
    rw [ContextManager.updateHistory, hget]

/-- Witness for history_bound_spec: a single session for user u with empty
history and six appended entries. -/
theorem history_bound_spec_witness :
    (∃ s', jsMapGet
        ([("q1", "a1", (1 : Int)), ("q2", "a2", 2), ("q3", "a3", 3), ("q4", "a4", 4),
          ("q5", "a5", 5), ("q6", "a6", 6)].foldl
          (fun acc p => ContextManager.updateHistory p.2.2 acc "u" p.1 p.2.1)
          [("u", sampleSession)]) "u"
        = some s' ∧
      s'.history = ([("q1", "a1", (1 : Int)), ("q2", "a2", 2), ("q3", "a3", 3), ("q4", "a4", 4),
          ("q5", "a5", 5), ("q6", "a6", 6)].map mkQA).drop
        ([("q1", "a1", (1 : Int)), ("q2", "a2", 2), ("q3", "a3", 3), ("q4", "a4", 4),
          ("q5", "a5", 5), ("q6", "a6", 6)].length - configQa.maxHistoryPairs)) ∧
    (∀ (m' : List (String × Session)) (now : Int) (u' q a : String),
      (∀ p ∈ m', p.2.history.length ≤ configQa.maxHistoryPairs) →
      ∀ p ∈ ContextManager.updateHistory now m' u' q a,
        p.2.history.length ≤ configQa.maxHistoryPairs) ∧
    (∀ (m' : List (String × Session)) (now : Int) (u' q a : String),
      jsMapGet m' u' = none → ContextManager.updateHistory now m' u' q a = m') :=
  history_bound_spec "u"
    [("q1", "a1", (1 : Int)), ("q2", "a2", 2), ("q3", "a3", 3), ("q4", "a4", 4),
      ("q5", "a5", 5), ("q6", "a6", 6)]
    [("u", sampleSession)] sampleSession (by decide) (by decide) (by decide)

/-! ### Session creation and replacement -/

/-- Folding createSession calls for one owner: the stored session is the
fresh session of the last call. -/
theorem createSession_fold (u : String) :
    ∀ (calls : List (Int × String × Transcript)) (st : ContextManager.CMState)
      (c : Int × String × Transcript), calls.getLast? = some c →
      jsMapGet
        ((calls.foldl
          (fun acc p => (ContextManager.createSession p.1 acc u p.2.1 p.2.2).1) st)).sessions u
        = some { user_id := u, video_id := c.2.1, transcript := c.2.2, chunks := [],
                 history := [], language := "en", created_at := c.1, last_accessed := c.1 } := by
  intro calls
  induction calls with
  | nil => intro st c h; simp at h
  | cons p ps ih =>
      intro st c h
      cases ps with
      | nil =>
          have hc : p = c := by simpa using h
          subst hc
          simp only [List.foldl_cons, List.foldl_nil]
          simp only [ContextManager.createSession]
          exact jsMapGet_jsMapSet_same st.sessions u _
      | cons p2 ps2 =>
          rw [List.getLast?_cons_cons] at h
          simp only [List.foldl_cons] at ih ⊢
          exact ih _ c h

/-- C9: after any nonempty sequence of createSession calls for an owner,
getSession returns a session carrying exactly the last call's video id
and transcript, with empty history; moreover immediately after each
createSession call the stored session is the returned fresh session and
its history is empty. -/
theorem session_replacement_spec (st : ContextManager.CMState) (u : String)
    (calls : List (Int × String × Transcript)) (c : Int × String × Transcript) (now' : Int)
    (h : calls.getLast? = some c) :
    (ContextManager.getSession now'
        (calls.foldl (fun acc p => (ContextManager.createSession p.1 acc u p.2.1 p.2.2).1) st)
        u).1 =
      some { user_id := u, video_id := c.2.1, transcript := c.2.2, chunks := [], history := [],
             language := "en", created_at := c.1, last_accessed := now' } ∧
    (∀ (now : Int) (st' : ContextManager.CMState) (vid : String) (t : Transcript),
      (ContextManager.createSession now st' u vid t).2.history = [] ∧
      jsMapGet (ContextManager.createSession now st' u vid t).1.sessions u =
        some (ContextManager.createSession now st' u vid t).2) := by
  constructor
  · have hfold := createSession_fold u calls st c h
    simp only [ContextManager.getSession, hfold]
  · intro now st' vid t
    constructor
    · rfl
    · simp only [ContextManager.createSession]
      exact jsMapGet_jsMapSet_same st'.sessions u _

/-- Witness for session_replacement_spec: two createSession calls for u,
the second with video v2; getSession at time 9. -/
theorem session_replacement_spec_witness :
    (ContextManager.getSession 9
        ([((0 : Int), "v1", sampleT "v1"), ((1 : Int), "v2", sampleT "v2")].foldl
          (fun acc p => (ContextManager.createSession p.1 acc "u" p.2.1 p.2.2).1)
          ⟨[], []⟩)
        "u").1 =
      some { user_id := "u", video_id := "v2", transcript := sampleT "v2", chunks := [],
             history := [], language := "en", created_at := 1, last_accessed := 9 } ∧
    (∀ (now : Int) (st' : ContextManager.CMState) (vid : String) (t : Transcript),
      (ContextManager.createSession now st' "u" vid t).2.history = [] ∧
      jsMapGet (ContextManager.createSession now st' "u" vid t).1.sessions "u" =
        some (ContextManager.createSession now st' "u" vid t).2) :=
  session_replacement_spec ⟨[], []⟩ "u"
    [((0 : Int), "v1", sampleT "v1"), ((1 : Int), "v2", sampleT "v2")]
    ((1 : Int), "v2", sampleT "v2") 9 (by decide)

/-! ### Relevance ranking (QAEngine.findRelevantChunks) -/

theorem mem_insertDescBy {α : Type} (f : α → Nat) (x : α) :
    ∀ (l : List α) (a : α), a ∈ QAEngine.insertDescBy f x l ↔ a = x ∨ a ∈ l := by
  intro l
  induction l with
  | nil => intro a; simp [QAEngine.insertDescBy]
  | cons y ys ih =>
      intro a
      rw [QAEngine.insertDescBy]
      split
      · simp [List.mem_cons]
      · simp only [List.mem_cons, ih a]
        tauto

theorem mem_sortDescBy {α : Type} (f : α → Nat) :
    ∀ (l : List α) (a : α), a ∈ QAEngine.sortDescBy f l ↔ a ∈ l := by
  intro l
  induction l with
  | nil => intro a; simp [QAEngine.sortDescBy]
  | cons x xs ih =>
      intro a
      show a ∈ QAEngine.insertDescBy f x (QAEngine.sortDescBy f xs) ↔ a ∈ x :: xs
      rw [mem_insertDescBy, ih a, List.mem_cons]

theorem pairwise_insertDescBy {α : Type} (f : α → Nat) (x : α) :
    ∀ (l : List α), l.Pairwise (fun a b => f b ≤ f a) →
      (QAEngine.insertDescBy f x l).Pairwise (fun a b => f b ≤ f a) := by
  intro l
  induction l with
  | nil => intro _; simp [QAEngine.insertDescBy]
  | cons y ys ih =>
      intro hp
      rcases List.pairwise_cons.mp hp with ⟨hy, hys⟩
      rw [QAEngine.insertDescBy]
      split_ifs with hcond
      · refine List.pairwise_cons.mpr ⟨?_, hp⟩
        intro b hb
        rcases List.mem_cons.mp hb with hb | hb
        · subst hb; exact hcond
        · exact Nat.le_trans (hy b hb) hcond
      · refine List.pairwise_cons.mpr ⟨?_, ih hys⟩
        intro b hb
        rcases (mem_insertDescBy f x ys b).mp hb with hb | hb
        · subst hb; omega
        · exact hy b hb

theorem pairwise_sortDescBy {α : Type} (f : α → Nat) :
    ∀ (l : List α), (QAEngine.sortDescBy f l).Pairwise (fun a b => f b ≤ f a) := by
  intro l
  induction l with
  | nil => simp [QAEngine.sortDescBy]
  | cons x xs ih => exact pairwise_insertDescBy f x _ ih

theorem mem_insertStableBy {α : Type} (f : α → Nat) (x : α × Nat) :
    ∀ (l : List (α × Nat)) (a : α × Nat),
      a ∈ QAEngine.insertStableBy f x l ↔ a = x ∨ a ∈ l := by
  intro l
  induction l with
  | nil => intro a; simp [QAEngine.insertStableBy]
  | cons y ys ih =>
      intro a
      rw [QAEngine.insertStableBy]
      split
      · simp [List.mem_cons]
      · simp only [List.mem_cons, ih a]
        tauto

theorem mem_sortStableBy {α : Type} (f : α → Nat) :
    ∀ (l : List (α × Nat)) (a : α × Nat),
      a ∈ QAEngine.sortStableBy f l ↔ a ∈ l := by
  intro l
  induction l with
  | nil => intro a; simp [QAEngine.sortStableBy]
  | cons x xs ih =>
      intro a
      show a ∈ QAEngine.insertStableBy f x (QAEngine.sortStableBy f xs) ↔ a ∈ x :: xs
      rw [mem_insertStableBy, ih a, List.mem_cons]

theorem withIdx_idx_ge {α : Type} :
    ∀ (l : List α) (n : Nat) (p : α × Nat), p ∈ QAEngine.withIdx l n → n ≤ p.2 := by
  intro l
  induction l with
  | nil => intro n p hp; simp [QAEngine.withIdx] at hp
  | cons x xs ih =>
      intro n p hp
      rcases List.mem_cons.mp hp with hp | hp
      · subst hp; exact Nat.le_refl n
      · exact Nat.le_of_succ_le (ih (n + 1) p hp)

/-- Dropping the indices commutes with stable insertion when the inserted
element's index is below every index in the list: the stable tie-break by
index coincides with placing the earlier element first. -/
theorem insertStableBy_map_fst {α : Type} (f : α → Nat) (x : α × Nat) :
    ∀ (ys : List (α × Nat)), (∀ y ∈ ys, x.2 < y.2) →
      (QAEngine.insertStableBy f x ys).map Prod.fst =
        QAEngine.insertDescBy f x.1 (ys.map Prod.fst) := by
  intro ys
  induction ys with
  | nil => intro _; rfl
  | cons y ys ih =>
      intro hgt
      have hcond : (f y.1 < f x.1 ∨ (f y.1 = f x.1 ∧ x.2 < y.2)) ↔ f y.1 ≤ f x.1 := by
        constructor
        · rintro (h2 | ⟨h2, _⟩)
          · omega
          · omega
        · intro h2
          rcases Nat.lt_or_ge (f y.1) (f x.1) with h3 | h3
          · exact Or.inl h3
          · exact Or.inr ⟨by omega, hgt y (List.mem_cons_self y ys)⟩
      rw [QAEngine.insertStableBy]
      simp only [List.map_cons]
      rw [QAEngine.insertDescBy]
      by_cases hc : f y.1 ≤ f x.1
      · rw [if_pos (hcond.mpr hc), if_pos hc]
        simp
      · rw [if_neg (fun hh => hc (hcond.mp hh)), if_neg hc]
        simp only [List.map_cons]
        rw [ih (fun z hz => hgt z (List.mem_cons_of_mem y hz))]

/-- The stable indexed sort projects to the plain stable descending sort
when run on the elements paired with their positions. -/
theorem sortStableBy_map_fst {α : Type} (f : α → Nat) :
    ∀ (l : List α) (n : Nat),
      (QAEngine.sortStableBy f (QAEngine.withIdx l n)).map Prod.fst =
        QAEngine.sortDescBy f l := by
  intro l
  induction l with
  | nil => intro n; rfl
  | cons x xs ih =>
      intro n
      show (QAEngine.insertStableBy f (x, n)
          (QAEngine.sortStableBy f (QAEngine.withIdx xs (n + 1)))).map Prod.fst =
        QAEngine.insertDescBy f x (QAEngine.sortDescBy f xs)
      rw [insertStableBy_map_fst f (x, n) _ ?_, ih (n + 1)]
      intro y hy
      have hmem : y ∈ QAEngine.withIdx xs (n + 1) :=
        (mem_sortStableBy f _ y).mp hy
      exact Nat.lt_of_lt_of_le (Nat.lt_succ_self n) (withIdx_idx_ge xs (n + 1) y hmem)

/-- findRelevantChunks computes exactly the spec-side ranking: stable sort
by descending score (ties by original position), zero scores dropped,
first maxRelevantChunks returned. -/
theorem findRelevantChunks_eq_rankSpec (question : String) (chunks : List QAEngine.Chunk) :
    QAEngine.findRelevantChunks question chunks = QAEngine.rankSpec question chunks := by
  simp only [QAEngine.findRelevantChunks, QAEngine.rankSpec]
  by_cases hkw :
      QAEngine.extractKeywords (String.mk (question.data.map Char.toLower)) = []
  · rw [if_pos hkw, if_pos hkw]
  · rw [if_neg hkw, if_neg hkw, sortStableBy_map_fst]

/-- Facts about the scoring pipeline of findRelevantChunks for a fixed
keyword list: members come from the input with positive score, scores are
nonincreasing along the result, and the result is empty exactly when
every input chunk scores zero. -/
theorem rank_core_facts (kws : List String) (chunks : List QAEngine.Chunk) :
    (∀ c ∈ (((QAEngine.sortDescBy Prod.snd
          (chunks.map (fun c => (c, QAEngine.scoreChunk kws c.text)))).filter
            (fun sc => 0 < sc.2)).take configQa.maxRelevantChunks).map Prod.fst,
        c ∈ chunks ∧ 0 < QAEngine.scoreChunk kws c.text) ∧
    ((((QAEngine.sortDescBy Prod.snd
          (chunks.map (fun c => (c, QAEngine.scoreChunk kws c.text)))).filter
            (fun sc => 0 < sc.2)).take configQa.maxRelevantChunks).map Prod.fst).Pairwise
        (fun c1 c2 => QAEngine.scoreChunk kws c2.text ≤ QAEngine.scoreChunk kws c1.text) ∧
    ((((QAEngine.sortDescBy Prod.snd
          (chunks.map (fun c => (c, QAEngine.scoreChunk kws c.text)))).filter
            (fun sc => 0 < sc.2)).take configQa.maxRelevantChunks).map Prod.fst = [] ↔
      ∀ c ∈ chunks, QAEngine.scoreChunk kws c.text = 0) := by
  have hscored : ∀ p ∈ QAEngine.sortDescBy Prod.snd
      (chunks.map (fun c => (c, QAEngine.scoreChunk kws c.text))),
      p.1 ∈ chunks ∧ p.2 = QAEngine.scoreChunk kws p.1.text := by
    intro p hp
    have hp2 : p ∈ chunks.map (fun c => (c, QAEngine.scoreChunk kws c.text)) :=
      (mem_sortDescBy Prod.snd _ p).mp hp
    rcases List.mem_map.mp hp2 with ⟨c0, hc0, hpc⟩
    subst hpc
    exact ⟨hc0, rfl⟩
  refine ⟨?_, ?_, ?_⟩
  · intro c hc
    rcases List.mem_map.mp hc with ⟨p, hp, hpc⟩
    have hpf := List.mem_of_mem_take hp
    have hppos := (List.mem_filter.mp hpf).2
    have hpsort := List.mem_of_mem_filter hpf
    rcases hscored p hpsort with ⟨hmem, hsc⟩
    subst hpc
    refine ⟨hmem, ?_⟩
    rw [← hsc]
    simpa using hppos
  · rw [List.pairwise_map]
    refine List.Pairwise.imp_of_mem ?_
      (List.Pairwise.sublist (List.take_sublist _ _)
        ((pairwise_sortDescBy Prod.snd _).filter _))
    intro a b ha hb hr
    have hamem := hscored a (List.mem_of_mem_filter (List.mem_of_mem_take ha))
    have hbmem := hscored b (List.mem_of_mem_filter (List.mem_of_mem_take hb))
    rw [← hamem.2, ← hbmem.2]
    exact hr
  · constructor
    · intro hnil c hc
      have hfil : ((QAEngine.sortDescBy Prod.snd
          (chunks.map (fun c => (c, QAEngine.scoreChunk kws c.text)))).filter
            (fun sc => 0 < sc.2)) = [] := by
        rcases List.take_eq_nil_iff.mp (List.map_eq_nil_iff.mp hnil) with h3 | h3
        · exact absurd h3 (by decide)
        · exact h3
      have hmem : (c, QAEngine.scoreChunk kws c.text) ∈ QAEngine.sortDescBy Prod.snd
          (chunks.map (fun c => (c, QAEngine.scoreChunk kws c.text))) :=
        (mem_sortDescBy Prod.snd _ _).mpr
          (List.mem_map_of_mem (fun c => (c, QAEngine.scoreChunk kws c.text)) hc)
      have := List.filter_eq_nil_iff.mp hfil _ hmem
      simpa using this
    · intro hall
      have hfil : ((QAEngine.sortDescBy Prod.snd
          (chunks.map (fun c => (c, QAEngine.scoreChunk kws c.text)))).filter
            (fun sc => 0 < sc.2)) = [] := by
        rw [List.filter_eq_nil_iff]
        intro p hp
        rcases hscored p hp with ⟨hmem, hsc⟩
        simp [hsc, hall p.1 hmem]
      rw [hfil]
      rfl

/-- C2 amended: rank returns at most maxRelevantChunks windows, every
returned window is one of the input windows (though, when scores differ,
not in input order), the result equals the spec-side ranking (stable sort
by descending score with ties broken by original position), and when the
keyword set is nonempty every returned window scores positively, scores
are nonincreasing along the result, and the result is empty exactly when
no input window scores positively. -/
theorem qa_rank_spec (question : String) (chunks : List QAEngine.Chunk) :
    (QAEngine.findRelevantChunks question chunks).length ≤ configQa.maxRelevantChunks ∧
    (∀ c ∈ QAEngine.findRelevantChunks question chunks, c ∈ chunks) ∧
    QAEngine.findRelevantChunks question chunks = QAEngine.rankSpec question chunks ∧
    (QAEngine.extractKeywords (String.mk (question.data.map Char.toLower)) ≠ [] →
      (∀ c ∈ QAEngine.findRelevantChunks question chunks,
        0 < QAEngine.scoreChunk
          (QAEngine.extractKeywords (String.mk (question.data.map Char.toLower))) c.text) ∧
      (QAEngine.findRelevantChunks question chunks).Pairwise
        (fun c1 c2 =>
          QAEngine.scoreChunk
            (QAEngine.extractKeywords (String.mk (question.data.map Char.toLower))) c2.text ≤
          QAEngine.scoreChunk
            (QAEngine.extractKeywords (String.mk (question.data.map Char.toLower))) c1.text) ∧
      (QAEngine.findRelevantChunks question chunks = [] ↔
        ∀ c ∈ chunks,
          QAEngine.scoreChunk
            (QAEngine.extractKeywords (String.mk (question.data.map Char.toLower)))
            c.text = 0)) := by
  by_cases hkw :
      QAEngine.extractKeywords (String.mk (question.data.map Char.toLower)) = []
  · refine ⟨?_, ?_, findRelevantChunks_eq_rankSpec question chunks, ?_⟩
    · simp only [QAEngine.findRelevantChunks, hkw, if_pos]
      exact List.length_take_le _ _
    · intro c hc
      simp only [QAEngine.findRelevantChunks, hkw, if_pos] at hc
      exact List.mem_of_mem_take hc
    · intro habs
      exact absurd hkw habs
  · have hcore := rank_core_facts
      (QAEngine.extractKeywords (String.mk (question.data.map Char.toLower))) chunks
    have hpipe : QAEngine.findRelevantChunks question chunks =
        (((QAEngine.sortDescBy Prod.snd
            (chunks.map (fun c => (c, QAEngine.scoreChunk
              (QAEngine.extractKeywords (String.mk (question.data.map Char.toLower)))
              c.text)))).filter
              (fun sc => 0 < sc.2)).take configQa.maxRelevantChunks).map Prod.fst := by
      simp only [QAEngine.findRelevantChunks, hkw, if_neg, ite_false]
    refine ⟨?_, ?_, findRelevantChunks_eq_rankSpec question chunks, ?_⟩
    · rw [hpipe, List.length_map]
      exact List.length_take_le _ _
    · intro c hc
      rw [hpipe] at hc
      exact (hcore.1 c hc).1
    · intro _
      refine ⟨?_, ?_, ?_⟩
      · intro c hc
        rw [hpipe] at hc
        exact (hcore.1 c hc).2
      · rw [hpipe]
        exact hcore.2.1
      · rw [hpipe]
        exact hcore.2.2

/-- Witness-style instantiation of qa_rank_spec on the concrete query
banana over two windows with scores 1 and 2. -/
theorem qa_rank_spec_witness :
    (QAEngine.findRelevantChunks "banana"
      [⟨"banana", 0, 1⟩, ⟨"banana banana", 1, 3⟩]).length ≤ configQa.maxRelevantChunks ∧
    (∀ c ∈ QAEngine.findRelevantChunks "banana"
        [⟨"banana", 0, 1⟩, ⟨"banana banana", 1, 3⟩],
      c ∈ ([⟨"banana", 0, 1⟩, ⟨"banana banana", 1, 3⟩] : List QAEngine.Chunk)) ∧
    QAEngine.findRelevantChunks "banana" [⟨"banana", 0, 1⟩, ⟨"banana banana", 1, 3⟩] =
      QAEngine.rankSpec "banana" [⟨"banana", 0, 1⟩, ⟨"banana banana", 1, 3⟩] ∧
    (QAEngine.extractKeywords (String.mk (("banana" : String).data.map Char.toLower)) ≠ [] →
      (∀ c ∈ QAEngine.findRelevantChunks "banana"
          [⟨"banana", 0, 1⟩, ⟨"banana banana", 1, 3⟩],
        0 < QAEngine.scoreChunk
          (QAEngine.extractKeywords (String.mk (("banana" : String).data.map Char.toLower)))
          c.text) ∧
      (QAEngine.findRelevantChunks "banana"
          [⟨"banana", 0, 1⟩, ⟨"banana banana", 1, 3⟩]).Pairwise
        (fun c1 c2 =>
          QAEngine.scoreChunk
            (QAEngine.extractKeywords
              (String.mk (("banana" : String).data.map Char.toLower))) c2.text ≤
          QAEngine.scoreChunk
            (QAEngine.extractKeywords
              (String.mk (("banana" : String).data.map Char.toLower))) c1.text) ∧
      (QAEngine.findRelevantChunks "banana"
          [⟨"banana", 0, 1⟩, ⟨"banana banana", 1, 3⟩] = [] ↔
        ∀ c ∈ ([⟨"banana", 0, 1⟩, ⟨"banana banana", 1, 3⟩] : List QAEngine.Chunk),
          QAEngine.scoreChunk
            (QAEngine.extractKeywords
              (String.mk (("banana" : String).data.map Char.toLower))) c.text = 0)) :=
  qa_rank_spec "banana" [⟨"banana", 0, 1⟩, ⟨"banana banana", 1, 3⟩]

/-- C2 counterexample: for the query banana over the windows banana and
banana banana (scores 1 and 2), rank returns the windows in score order,
which is not a subsequence of the input windows. -/
theorem qa_rank_not_sublist_counterexample :
    QAEngine.findRelevantChunks "banana" [⟨"banana", 0, 1⟩, ⟨"banana banana", 1, 3⟩] =
      [⟨"banana banana", 1, 3⟩, ⟨"banana", 0, 1⟩] ∧
    ¬ (QAEngine.findRelevantChunks "banana"
        [⟨"banana", 0, 1⟩, ⟨"banana banana", 1, 3⟩]).Sublist
      [⟨"banana", 0, 1⟩, ⟨"banana banana", 1, 3⟩] := by
  have heval : QAEngine.findRelevantChunks "banana"
      [⟨"banana", 0, 1⟩, ⟨"banana banana", 1, 3⟩] =
      [⟨"banana banana", 1, 3⟩, ⟨"banana", 0, 1⟩] := by decide
  refine ⟨heval, ?_⟩
  rw [heval]
  intro hsub
  have hlen : ([(⟨"banana banana", 1, 3⟩ : QAEngine.Chunk), ⟨"banana", 0, 1⟩]).length =
      ([(⟨"banana", 0, 1⟩ : QAEngine.Chunk), ⟨"banana banana", 1, 3⟩]).length := rfl
  have heq := hsub.eq_of_length hlen
  exact absurd heq (by decide)

/-! ### Keyword purity and regex escaping (QAEngine) -/

/-- Every character of every piece returned by the whitespace split
satisfies any property that holds of all non-whitespace input characters
and all characters of the pending accumulator. -/
theorem splitWsGo_chars (P : Char → Prop) :
    ∀ (l : List Char) (st : Option (List Char)),
      (∀ acc, st = some acc → ∀ c ∈ acc, P c) →
      (∀ c ∈ l, isJsWhitespace c = false → P c) →
      ∀ w ∈ splitWsGo st l, ∀ c ∈ w, P c := by
  intro l
  induction l with
  | nil =>
      intro st hacc _ w hw c hc
      cases st with
      | some acc =>
          simp only [splitWsGo, List.mem_singleton] at hw
          subst hw
          exact hacc acc rfl c (List.mem_reverse.mp hc)
      | none =>
          simp only [splitWsGo, List.mem_singleton] at hw
          subst hw
          simp at hc
  | cons c0 cs ih =>
      intro st hacc hl w hw c hc
      have hl2 : ∀ c ∈ cs, isJsWhitespace c = false → P c :=
        fun c hcm => hl c (List.mem_cons_of_mem c0 hcm)
      cases st with
      | some acc =>
          by_cases hws : isJsWhitespace c0
          · simp only [splitWsGo, hws, if_true] at hw
            rcases List.mem_cons.mp hw with hw | hw
            · subst hw
              exact hacc acc rfl c (List.mem_reverse.mp hc)
            · exact ih none (by intro a ha; simp at ha) hl2 w hw c hc
          · simp only [splitWsGo, hws, Bool.false_eq_true, if_false] at hw
            refine ih (some (c0 :: acc)) ?_ hl2 w hw c hc
            intro a ha
            intro c2 hc2
            rcases List.mem_cons.mp (((Option.some_inj.mp ha).symm) ▸ hc2) with h2 | h2
            · rw [h2]
              exact hl c0 (List.mem_cons_self c0 cs) (by simpa using hws)
            · exact hacc acc rfl c2 h2
      | none =>
          by_cases hws : isJsWhitespace c0
          · simp only [splitWsGo, hws, if_true] at hw
            exact ih none (by intro a ha; simp at ha) hl2 w hw c hc
          · simp only [splitWsGo, hws, Bool.false_eq_true, if_false] at hw
            refine ih (some [c0]) ?_ hl2 w hw c hc
            intro a ha c2 hc2
            have h2 := List.mem_singleton.mp (((Option.some_inj.mp ha).symm) ▸ hc2)
            rw [h2]
            exact hl c0 (List.mem_cons_self c0 cs) (by simpa using hws)

theorem dedupFirstAux_subset :
    ∀ (l seen : List (List Char)) (w : List Char),
      w ∈ QAEngine.dedupFirstAux seen l → w ∈ l := by
  intro l
  induction l with
  | nil => intro seen w hw; simp [QAEngine.dedupFirstAux] at hw
  | cons x xs ih =>
      intro seen w hw
      rw [QAEngine.dedupFirstAux] at hw
      split at hw
      · exact List.mem_cons_of_mem x (ih seen w hw)
      · rcases List.mem_cons.mp hw with hw | hw
        · exact hw ▸ List.mem_cons_self x xs
        · exact List.mem_cons_of_mem x (ih (x :: seen) w hw)

/-- Every keyword extracted from any text is nonempty and consists purely
of word characters: extractKeywords replaces every character that is
neither a word character nor whitespace by a space before splitting, so
no regex metacharacter survives into a keyword. -/
theorem extractKeywords_wordChars (text : String) :
    ∀ kw ∈ QAEngine.extractKeywords text,
      kw.data ≠ [] ∧ ∀ c ∈ kw.data, QAEngine.isWordChar c = true := by
  intro kw hkw
  simp only [QAEngine.extractKeywords] at hkw
  rcases List.mem_map.mp hkw with ⟨w, hw, hmk⟩
  have hw2 := dedupFirstAux_subset _ [] w hw
  have hw3 := List.mem_of_mem_filter hw2
  have hlen := (List.mem_filter.mp hw2).2
  simp only [decide_eq_true_eq] at hlen
  have hchars : ∀ c ∈ w, QAEngine.isWordChar c = true := by
    refine splitWsGo_chars (fun c => QAEngine.isWordChar c = true) _ (some [])
      (by intro a ha c2 hc2; simp at ha; subst ha; simp at hc2) ?_ w hw3
    intro c hcm hcw
    rcases List.mem_map.mp hcm with ⟨c1, _, hcc⟩
    by_cases hword : QAEngine.isWordChar c1
    · have : c = c1 := by
        rw [← hcc]
        simp [hword]
      exact this ▸ hword
    · by_cases hws : isJsWhitespace c1
      · have : c = c1 := by
          rw [← hcc]
          simp [hws]
        rw [this] at hcw
        exact absurd hws (by rw [hcw]; exact Bool.false_ne_true)
      · have : c = ' ' := by
          rw [← hcc]
          simp [hword, hws]
        rw [this] at hcw
        exact absurd hcw (by decide)
  subst hmk
  constructor
  · show ¬ w = []
    intro hnil
    rw [hnil] at hlen
    simp at hlen
  · exact hchars

/-- escapeRegex is the identity on strings of word characters (no word
character is a regex metacharacter). -/
theorem escapeRegex_id (s : String) (h : ∀ c ∈ s.data, QAEngine.isWordChar c = true) :
    QAEngine.escapeRegex s = s := by
  have hnot : ∀ c, QAEngine.isWordChar c = true → ¬ c ∈ QAEngine.regexSpecialChars := by
    intro c hc hmem
    have : ∀ c2 ∈ QAEngine.regexSpecialChars, QAEngine.isWordChar c2 = false := by decide
    rw [this c hmem] at hc
    exact Bool.false_ne_true hc
  have hfold : ∀ (l : List Char), (∀ c ∈ l, QAEngine.isWordChar c = true) →
      l.foldr (fun c acc =>
        if c ∈ QAEngine.regexSpecialChars then '\\' :: c :: acc else c :: acc) [] = l := by
    intro l
    induction l with
    | nil => intro _; rfl
    | cons c cs ih =>
        intro hall
        simp only [List.foldr_cons]
        rw [if_neg (hnot c (hall c (List.mem_cons_self c cs)))]
        rw [ih (fun c2 hc2 => hall c2 (List.mem_cons_of_mem c hc2))]
  show String.mk _ = s
  rw [hfold s.data h]

/-- C10: every keyword extracted from any query consists only of word
characters (so the compiled whole-word pattern treats it as literal
text), is nonempty, and is left unchanged by escapeRegex; scoring any
keyword against any window and ranking any query are total functions in
this model, so findRelevantChunks never fails on metacharacter input. -/
theorem rank_regex_safety (question : String) (kw : String)
    (hkw : kw ∈ QAEngine.extractKeywords question) :
    kw.data ≠ [] ∧ (∀ c ∈ kw.data, QAEngine.isWordChar c = true) ∧
      QAEngine.escapeRegex kw = kw := by
  rcases extractKeywords_wordChars question kw hkw with ⟨hne, hchars⟩
  exact ⟨hne, hchars, escapeRegex_id kw hchars⟩

/-- Witness for rank_regex_safety: the keyword banana extracted from a
query full of regex metacharacters. -/
theorem rank_regex_safety_witness :
    ("banana" : String).data ≠ [] ∧
    (∀ c ∈ ("banana" : String).data, QAEngine.isWordChar c = true) ∧
    QAEngine.escapeRegex "banana" = "banana" :=
  rank_regex_safety "a banana. (*+?)" "banana" (by decide)

end YTS
